import Mathlib

/-!
Shallow embedding of the go-web-browser HTTP fetch engine: protocol codec,
connection pool, response cache and redirect-following orchestrator.
Byte streams and Go strings are modelled as `List Char`; Go maps as
association lists or explicit lookup functions; Go `int`/`int64` as `Int`
with the explicit 64-bit bounds that `strconv` enforces.
-/

/-! ## Go string primitives -/

/-- Characters treated as white space by Go `strings.TrimSpace`
(Latin-1 range of `unicode.IsSpace`). -/
def isSpaceGo (c : Char) : Bool :=
  c = ' ' || c = '\t' || c = '\n' || c = Char.ofNat 11 || c = Char.ofNat 12 ||
  c = '\r' || c = Char.ofNat 0x85 || c = Char.ofNat 0xA0

/-- Go `strings.TrimSpace`. -/
def trimSpace (s : List Char) : List Char :=
  ((s.dropWhile isSpaceGo).reverse.dropWhile isSpaceGo).reverse

/-- Go `strings.SplitN(s, sep, 2)` for a non-empty separator, merged with the
implicit found/not-found distinction (`none` when the separator is absent,
which Go reports as a result of length 1). -/
def splitN2 (sep : List Char) : List Char → Option (List Char × List Char)
  | [] => if sep.isPrefixOf ([] : List Char) then some ([], []) else none
  | a :: as =>
    if sep.isPrefixOf (a :: as) then some ([], (a :: as).drop sep.length)
    else
      match splitN2 sep as with
      | some (pre, post) => some (a :: pre, post)
      | none => none

/-- Go `strings.SplitN(s, sep, n)` for a single-character separator and
`n ≥ 1`. -/
def splitNChar (sep : Char) : Nat → List Char → List (List Char)
  | 0, _ => []
  | 1, s => [s]
  | n + 2, s =>
    match splitN2 [sep] s with
    | none => [s]
    | some (pre, post) => pre :: splitNChar sep (n + 1) post

/-- Go `strings.Split(s, sep)` for a single-character separator. -/
def splitOnChar (sep : Char) : List Char → List (List Char)
  | [] => [[]]
  | a :: as =>
    match splitOnChar sep as with
    | [] => [[]]
    | h :: t => if a = sep then [] :: h :: t else (a :: h) :: t

/-- Go `strings.Contains(s, sub)` used on error messages. -/
def containsSeq (pat : List Char) : List Char → Bool
  | [] => pat.isPrefixOf ([] : List Char)
  | a :: as => pat.isPrefixOf (a :: as) || containsSeq pat as

/-- ASCII lower-casing of one character, as Go `strings.ToLower` acts on
ASCII header names. -/
def toLowerChar (c : Char) : Char :=
  if 'A' ≤ c ∧ c ≤ 'Z' then Char.ofNat (c.toNat + 32) else c

/-- Go `strings.ToLower` on ASCII strings. -/
def toLowerStr (s : List Char) : List Char := s.map toLowerChar

/-! ## Go integer parsing and formatting -/

/-- Value of a decimal digit character, if any. -/
def digitVal10 (c : Char) : Option Nat :=
  if '0' ≤ c ∧ c ≤ '9' then some (c.toNat - '0'.toNat) else none

/-- Value of a hexadecimal digit character, if any. -/
def digitVal16 (c : Char) : Option Nat :=
  if '0' ≤ c ∧ c ≤ '9' then some (c.toNat - '0'.toNat)
  else if 'a' ≤ c ∧ c ≤ 'f' then some (c.toNat - 'a'.toNat + 10)
  else if 'A' ≤ c ∧ c ≤ 'F' then some (c.toNat - 'A'.toNat + 10)
  else none

/-- Largest value of a Go `int64`. -/
def maxI64 : Nat := 2 ^ 63 - 1

/-- One digit step of the Go `strconv.ParseUint` scan. -/
def puStep (dv : Char → Option Nat) (base : Nat) (acc : Option Nat) (c : Char) :
    Option Nat :=
  match acc, dv c with
  | some a, some d => some (a * base + d)
  | _, _ => none

/-- Go `strconv.ParseUint` digit scan: empty input or any invalid digit is
an error. -/
def parseUnsigned (dv : Char → Option Nat) (base : Nat) (s : List Char) : Option Nat :=
  if s = [] then none else s.foldl (puStep dv base) (some 0)

/-- Go `strconv.ParseInt(s, base, 64)`: optional sign, then digits, with the
64-bit range check (values out of range are an error for the callers here,
which all treat a non-nil `err` as failure). -/
def goParseInt (dv : Char → Option Nat) (base : Nat) (s : List Char) : Option Int :=
  if s.head? = some '+' then
    match parseUnsigned dv base s.tail with
    | some n => if n ≤ maxI64 then some (Int.ofNat n) else none
    | none => none
  else if s.head? = some '-' then
    match parseUnsigned dv base s.tail with
    | some n => if n ≤ maxI64 + 1 then some (-(Int.ofNat n)) else none
    | none => none
  else
    match parseUnsigned dv base s with
    | some n => if n ≤ maxI64 then some (Int.ofNat n) else none
    | none => none

/-- Go `strconv.Atoi` (64-bit platform). -/
def goAtoi (s : List Char) : Option Int := goParseInt digitVal10 10 s

/-- Go `strconv.ParseInt(s, 16, 64)` as used on chunk-size lines. -/
def parseHexInt64 (s : List Char) : Option Int := goParseInt digitVal16 16 s

/-- Character of a decimal digit. -/
def digitToChar (d : Nat) : Char := Char.ofNat ('0'.toNat + d)

/-- Decimal rendering of a natural number, as Go `fmt` prints it. -/
def natToChars (n : Nat) : List Char :=
  if _h : n < 10 then [digitToChar n]
  else natToChars (n / 10) ++ [digitToChar (n % 10)]
  decreasing_by exact Nat.div_lt_self (by omega) (by omega)

/-- Go `fmt.Sprintf` verb `%d` on an `int`. -/
def intToChars (i : Int) : List Char :=
  if i < 0 then '-' :: natToChars i.natAbs else natToChars i.toNat

/-! ## Headers -/

/-- Response headers: Go `map[string]string`, observed only through lookup;
modelled as an association list updated with last-write-wins. -/
def Headers : Type := List (List Char × List Char)

instance : DecidableEq Headers := by
  unfold Headers; infer_instance

/-- Map lookup with its `ok` flag: `none` when the key is absent. -/
def hfind (h : Headers) (k : List Char) : Option (List Char) :=
  (List.find? (fun p => p.1 = k) h).map Prod.snd

/-- Map lookup returning Go's zero value for a missing key. -/
def hgetD (h : Headers) (k : List Char) : List Char := (hfind h k).getD []

/-- Map update `h[k] = v`. -/
def hset (h : Headers) (k v : List Char) : Headers :=
  (k, v) :: List.filter (fun p => ¬ p.1 = k) h

/-! ## Response cache (Cache.Get / Cache.Put / Cache.Clear, parseCacheControl) -/

/-- One cached response: body, headers, store time and `max-age`
(with 0 meaning no expiry). -/
structure CacheEntry where
  Body : List Char
  Headers' : Headers
  Timestamp : Int
  MaxAge : Int
deriving DecidableEq

/-- The cache's `entries` map, keyed by URL string. -/
def CacheMap : Type := List Char → Option CacheEntry

/-- The empty cache, as built by `NewCache`. -/
def emptyCacheMap : CacheMap := fun _ => none

/-- Map update `entries[url] = entry`, the last line of `Cache.Put`. -/
def cacheInsert (c : CacheMap) (url : List Char) (e : CacheEntry) : CacheMap :=
  fun k => if k = url then some e else c k

/-- The `cache-control` key as stored by the lower-casing header parser. -/
def cacheControlKey : List Char := ("cache-control").toList

/-- The `no-store` directive. -/
def noStoreTok : List Char := ("no-store").toList

/-- The `max-age=` directive prefix string. -/
def maxAgePre : List Char := ("max-age=").toList

/-- The bare `max-age` token, which the unsupported-directive test in
`parseCacheControl` also lets pass. -/
def maxAgeBare : List Char := ("max-age").toList

/-- The directive scan loop of `parseCacheControl`, carrying
`foundMaxAge` and `maxAgeValue`. -/
def pccLoop : List (List Char) → Bool → Int → Bool × Int
  | [], found, v => (false, if found then v else 0)
  | d₀ :: ds, found, v =>
    let d := trimSpace d₀
    if d = noStoreTok then (true, -1)
    else if maxAgePre.isPrefixOf d then
      match goAtoi (d.drop 8) with
      | some age => if 0 ≤ age then pccLoop ds true age else pccLoop ds found v
      | none => pccLoop ds found v
    else if d ≠ [] ∧ d ≠ maxAgeBare then (false, -2)
    else pccLoop ds found v

/-- `parseCacheControl`: returns the `noStore` flag and the max-age value,
with 0 for no directive, -1 alongside `no-store`, and -2 for an
unsupported directive. -/
def parseCacheControl (cacheControl : List Char) : Bool × Int :=
  if cacheControl = [] then (false, 0)
  else pccLoop (splitOnChar ',' cacheControl) false 0

/-- `Cache.Get`: lazy-evicting lookup; returns the updated map and the
entry when it is a hit. -/
def Cache.Get (c : CacheMap) (now : Int) (url : List Char) :
    CacheMap × Option CacheEntry :=
  match c url with
  | none => (c, none)
  | some entry =>
    if 0 < entry.MaxAge ∧ entry.MaxAge < now - entry.Timestamp then
      (fun k => if k = url then none else c k, none)
    else (c, some entry)

/-- `Cache.Put`: stores a 200 response unless `Cache-Control` forbids it. -/
def Cache.Put (c : CacheMap) (now : Int) (url : List Char) (statusCode : Int)
    (body : List Char) (headers : Headers) : CacheMap :=
  if statusCode ≠ 200 then c
  else
    let pr := parseCacheControl (hgetD headers cacheControlKey)
    if pr.1 then c
    else if pr.2 = -2 then c
    else cacheInsert c url ⟨body, headers, now, pr.2⟩

/-- `Cache.Clear`: replaces the entry map with a fresh empty one. -/
def Cache.Clear (_ : CacheMap) : CacheMap := fun _ => none

/-! ## Spec-side cache-eligibility predicates -/

/-- Modelled from the spec (claim C1's wording): a directive token the claim
counts as recognized, namely `no-store` or `max-age=` followed by a
non-negative integer. -/
def claimC1Directive (d : List Char) : Bool :=
  d = noStoreTok ||
    (maxAgePre.isPrefixOf d &&
      match goAtoi (d.drop 8) with
      | some age => decide (0 ≤ age)
      | none => false)

/-- Modelled from the spec (claim C1's wording): the response is cacheable
iff every trimmed token is recognized and no `no-store` token occurs. -/
def claimC1Cacheable (tokens : List (List Char)) : Bool :=
  tokens.all (fun t => claimC1Directive (trimSpace t)) &&
    !(tokens.any (fun t => trimSpace t = noStoreTok))

/-- A trimmed directive token the code lets pass without disabling caching:
empty, the bare `max-age`, or anything starting with `max-age=`. -/
def directiveAllowsCaching (d : List Char) : Bool :=
  d = [] || d = maxAgeBare || maxAgePre.isPrefixOf d

/-- The response is stored exactly when every trimmed token passes
`directiveAllowsCaching` (so neither `no-store` nor an unrecognized token
occurs anywhere). -/
def ccCacheable (tokens : List (List Char)) : Bool :=
  tokens.all (fun t => directiveAllowsCaching (trimSpace t))

/-- The stored lifetime: the last `max-age=` token with a valid
non-negative value wins; 0 when none is present. -/
def ccFold (tokens : List (List Char)) (acc : Int) : Int :=
  tokens.foldl
    (fun a t =>
      let d := trimSpace t
      if maxAgePre.isPrefixOf d then
        match goAtoi (d.drop 8) with
        | some age => if 0 ≤ age then age else a
        | none => a
      else a)
    acc

/-- Lifetime of a stored response given its directive tokens. -/
def ccLifetime (tokens : List (List Char)) : Int := ccFold tokens 0

/-! ## Cache lemmas -/

theorem ccFold_nonneg (ts : List (List Char)) :
    ∀ acc : Int, 0 ≤ acc → 0 ≤ ccFold ts acc := by
  induction ts with
  | nil => intro acc h; simpa [ccFold] using h
  | cons t ts ih =>
    intro acc h
    show 0 ≤ ccFold ts _
    apply ih
    dsimp only
    split
    · cases hg : goAtoi ((trimSpace t).drop 8) with
      | none => simpa using h
      | some age => simp only; split <;> simp_all
    · simpa using h

theorem pccLoop_cacheable :
    ∀ (ts : List (List Char)) (f : Bool) (v : Int),
      ccCacheable ts = true → pccLoop ts f v = (false, ccFold ts (if f then v else 0))
  | [], f, v, _ => by simp [pccLoop, ccFold]
  | t :: ts, f, v, h => by
    have h1 : directiveAllowsCaching (trimSpace t) = true ∧ ccCacheable ts = true := by
      simpa [ccCacheable] using h
    obtain ⟨hd, hts⟩ := h1
    have hcases : (trimSpace t = [] ∨ trimSpace t = maxAgeBare) ∨
        maxAgePre.isPrefixOf (trimSpace t) = true := by
      simpa [directiveAllowsCaching] using hd
    have hfold : ∀ acc : Int, ccFold (t :: ts) acc =
        ccFold ts
          (if maxAgePre.isPrefixOf (trimSpace t) then
            match goAtoi ((trimSpace t).drop 8) with
            | some age => if 0 ≤ age then age else acc
            | none => acc
          else acc) := by
      intro acc; rfl
    rcases hcases with (he | hb) | hp
    · have c1 : ¬ (trimSpace t = noStoreTok) := by rw [he]; decide
      have c2 : maxAgePre.isPrefixOf (trimSpace t) = false := by rw [he]; decide
      have c3 : ¬ (trimSpace t ≠ [] ∧ trimSpace t ≠ maxAgeBare) := by rw [he]; decide
      rw [pccLoop, hfold, c2]
      rw [if_neg c1]
      simp only [Bool.false_eq_true, if_false]
      rw [if_neg c3]
      exact pccLoop_cacheable ts f v hts
    · have c1 : ¬ (trimSpace t = noStoreTok) := by rw [hb]; decide
      have c2 : maxAgePre.isPrefixOf (trimSpace t) = false := by rw [hb]; decide
      have c3 : ¬ (trimSpace t ≠ [] ∧ trimSpace t ≠ maxAgeBare) := by rw [hb]; decide
      rw [pccLoop, hfold, c2]
      rw [if_neg c1]
      simp only [Bool.false_eq_true, if_false]
      rw [if_neg c3]
      exact pccLoop_cacheable ts f v hts
    · have c1 : ¬ (trimSpace t = noStoreTok) := by
        intro hcon; rw [hcon] at hp; exact absurd hp (by decide)
      rw [pccLoop, hfold, hp]
      rw [if_neg c1]
      simp only [if_true]
      cases hg : goAtoi ((trimSpace t).drop 8) with
      | none => exact pccLoop_cacheable ts f v hts
      | some age =>
        simp only
        split
        · rw [pccLoop_cacheable ts true age hts]; simp
        · exact pccLoop_cacheable ts f v hts

theorem pccLoop_blocked :
    ∀ (ts : List (List Char)) (f : Bool) (v : Int),
      ccCacheable ts = false →
      pccLoop ts f v = (true, -1) ∨ pccLoop ts f v = (false, -2)
  | [], _, _, h => by simp [ccCacheable] at h
  | t :: ts, f, v, h => by
    rcases hd : directiveAllowsCaching (trimSpace t) with _ | _
    · -- the head token itself blocks caching
      have hd' := hd
      simp only [directiveAllowsCaching, Bool.or_eq_false_iff,
        decide_eq_false_iff_not] at hd'
      obtain ⟨⟨hne, hnb⟩, hnp⟩ := hd'
      by_cases hns : trimSpace t = noStoreTok
      · left; rw [pccLoop]; simp [hns]
      · right
        rw [pccLoop, hnp]
        rw [if_neg hns]
        simp only [Bool.false_eq_true, if_false]
        rw [if_pos ⟨hne, hnb⟩]
    · -- the head token passes; the tail must contain a blocking token
      have hts : ccCacheable ts = false := by
        have h' := h
        simp only [ccCacheable, List.all_cons, hd, Bool.true_and] at h'
        exact h'
      have hcases : (trimSpace t = [] ∨ trimSpace t = maxAgeBare) ∨
          maxAgePre.isPrefixOf (trimSpace t) = true := by
        simpa [directiveAllowsCaching] using hd
      rcases hcases with (he | hb) | hp
      · have c1 : ¬ (trimSpace t = noStoreTok) := by rw [he]; decide
        have c2 : maxAgePre.isPrefixOf (trimSpace t) = false := by rw [he]; decide
        have c3 : ¬ (trimSpace t ≠ [] ∧ trimSpace t ≠ maxAgeBare) := by rw [he]; decide
        rw [pccLoop, c2]
        rw [if_neg c1]
        simp only [Bool.false_eq_true, if_false]
        rw [if_neg c3]
        exact pccLoop_blocked ts f v hts
      · have c1 : ¬ (trimSpace t = noStoreTok) := by rw [hb]; decide
        have c2 : maxAgePre.isPrefixOf (trimSpace t) = false := by rw [hb]; decide
        have c3 : ¬ (trimSpace t ≠ [] ∧ trimSpace t ≠ maxAgeBare) := by rw [hb]; decide
        rw [pccLoop, c2]
        rw [if_neg c1]
        simp only [Bool.false_eq_true, if_false]
        rw [if_neg c3]
        exact pccLoop_blocked ts f v hts
      · have c1 : ¬ (trimSpace t = noStoreTok) := by
          intro hcon; rw [hcon] at hp; exact absurd hp (by decide)
        rw [pccLoop, hp]
        rw [if_neg c1]
        simp only [if_true]
        cases hg : goAtoi ((trimSpace t).drop 8) with
        | none => exact pccLoop_blocked ts f v hts
        | some age =>
          simp only
          split
          · exact pccLoop_blocked ts true age hts
          · exact pccLoop_blocked ts f v hts

/-! ## Claim C1 (cache store policy) and claim C4 (cache lookup) -/

/-- Claim C1 as stated is false on the code: the Cache-Control value
`max-age=abc` contains a token that is neither `no-store` nor
`max-age=<non-negative integer>` (so the claim says the response is
non-cacheable), yet `Cache.Put` stores the response, with unbounded
lifetime. -/
theorem cachePut_claimC1_counterexample :
    claimC1Cacheable (splitOnChar ',' (("max-age=abc").toList)) = false ∧
    (Cache.Put emptyCacheMap 0 (("k").toList) 200 (("b").toList)
        [(cacheControlKey, ("max-age=abc").toList)]) (("k").toList) =
      some ⟨("b").toList, [(cacheControlKey, ("max-age=abc").toList)], 0, 0⟩ :=
  ⟨by decide, by decide⟩

/-- Claim C1 amended: `store(key, status, body, headers)` leaves the cache
unchanged unless status is 200; with no Cache-Control header the entry is
stored with unbounded lifetime (maxAge 0); with a non-empty header the
response is stored iff every comma-separated trimmed token is harmless
(empty, the bare word `max-age`, or any token starting with `max-age=`,
malformed values included) — a `no-store` token or any other unrecognized
token anywhere prevents storage — and the stored lifetime is the last
`max-age=` token carrying a valid non-negative value, 0 when none does. -/
theorem cachePut_spec (c : CacheMap) (now : Int) (url : List Char) (st : Int)
    (b : List Char) (h : Headers) :
    (st ≠ 200 → Cache.Put c now url st b h = c) ∧
    (hgetD h cacheControlKey = [] → st = 200 →
      Cache.Put c now url st b h = cacheInsert c url ⟨b, h, now, 0⟩) ∧
    (∀ cc, hgetD h cacheControlKey = cc → cc ≠ [] → st = 200 →
      (ccCacheable (splitOnChar ',' cc) = true →
        Cache.Put c now url st b h =
          cacheInsert c url ⟨b, h, now, ccLifetime (splitOnChar ',' cc)⟩) ∧
      (ccCacheable (splitOnChar ',' cc) = false →
        Cache.Put c now url st b h = c)) := by
  refine ⟨fun hst => by simp [Cache.Put, hst], fun hcc hst => ?_, fun cc hcc hne hst => ?_⟩
  · subst hst
    simp [Cache.Put, hcc, parseCacheControl]
  · subst hst
    constructor
    · intro hok
      have hp := pccLoop_cacheable (splitOnChar ',' cc) false 0 hok
      simp only [Bool.false_eq_true, if_false] at hp
      have hnn : (0 : Int) ≤ ccFold (splitOnChar ',' cc) 0 := ccFold_nonneg _ 0 le_rfl
      simp only [Cache.Put, hcc, parseCacheControl, if_neg hne, hp, ccLifetime]
      rw [if_neg (show ¬ (200 : Int) ≠ 200 by simp),
        if_neg (show ¬ (ccFold (splitOnChar ',' cc) 0 = (-2 : Int)) by omega)]
      simp
    · intro hbad
      have hp := pccLoop_blocked (splitOnChar ',' cc) false 0 hbad
      rcases hp with hp | hp <;>
        simp [Cache.Put, hcc, parseCacheControl, if_neg hne, hp]

/-- Witness for the amended claim C1: `max-age=60, max-age=5` is stored and
the last max-age value, 5, becomes the lifetime. -/
theorem cachePut_spec_witness :
    Cache.Put emptyCacheMap 0 (("k").toList) 200 (("b").toList)
        [(cacheControlKey, ("max-age=60, max-age=5").toList)] =
      cacheInsert emptyCacheMap (("k").toList)
        ⟨("b").toList, [(cacheControlKey, ("max-age=60, max-age=5").toList)], 0, 5⟩ := by
  have h := ((cachePut_spec emptyCacheMap 0 (("k").toList) 200 (("b").toList)
      [(cacheControlKey, ("max-age=60, max-age=5").toList)]).2.2
      (("max-age=60, max-age=5").toList) (by decide) (by decide) rfl).1 (by decide)
  have h5 : ccLifetime (splitOnChar ',' (("max-age=60, max-age=5").toList)) = 5 := by decide
  rw [h5] at h
  exact h

/-- Claim C4: `lookup` is a hit iff the entry is present and it is not the
case that maxAge is positive and elapsed time exceeds it; an expired entry
is deleted and reported as a miss; an entry with maxAge 0 is a hit at every
time; after `clear()` every lookup misses. -/
theorem cacheGet_spec (c : CacheMap) (now : Int) (k : List Char) :
    (∀ e, (Cache.Get c now k).2 = some e ↔
        c k = some e ∧ ¬(0 < e.MaxAge ∧ e.MaxAge < now - e.Timestamp)) ∧
    (∀ e, c k = some e → 0 < e.MaxAge → e.MaxAge < now - e.Timestamp →
        (Cache.Get c now k).2 = none ∧ (Cache.Get c now k).1 k = none) ∧
    (∀ e, c k = some e → e.MaxAge = 0 → Cache.Get c now k = (c, some e)) ∧
    (Cache.Get (Cache.Clear c) now k).2 = none := by
  refine ⟨fun e => ?_, fun e hck h1 h2 => ?_, fun e hck h0 => ?_, ?_⟩
  · cases hck : c k with
    | none => simp [Cache.Get, hck]
    | some e' =>
      by_cases hex : 0 < e'.MaxAge ∧ e'.MaxAge < now - e'.Timestamp
      · simp only [Cache.Get, hck, if_pos hex]
        constructor
        · intro hcon; simp at hcon
        · rintro ⟨he, hlive⟩
          have he' : e' = e := by simpa using he
          subst he'
          exact absurd hex hlive
      · simp only [Cache.Get, hck, if_neg hex]
        constructor
        · intro he
          have he' : e' = e := by simpa using he
          subst he'
          exact ⟨rfl, hex⟩
        · rintro ⟨he, _⟩
          exact he
  · simp [Cache.Get, hck, h1, h2]
  · simp [Cache.Get, hck, h0]
  · simp [Cache.Get, Cache.Clear]

/-- Witness for claim C4: an entry with maxAge 5 stored at time 0 is evicted
and missed at time 10. -/
theorem cacheGet_spec_witness :
    (Cache.Get (cacheInsert emptyCacheMap (("k").toList) ⟨("b").toList, [], 0, 5⟩)
        10 (("k").toList)).2 = none ∧
    (Cache.Get (cacheInsert emptyCacheMap (("k").toList) ⟨("b").toList, [], 0, 5⟩)
        10 (("k").toList)).1 (("k").toList) = none :=
  (cacheGet_spec (cacheInsert emptyCacheMap (("k").toList) ⟨("b").toList, [], 0, 5⟩)
      10 (("k").toList)).2.1 ⟨("b").toList, [], 0, 5⟩ (by decide) (by decide) (by decide)

/-! ## Connection pool (ConnectionPool.Get / Put / Close) -/

/-- The connection pool: per-address idle lists plus the set of connections
on which Close was called (transport handles are modelled as numeric ids). -/
structure ConnectionPool where
  connections : List Char → List Nat
  closed : List Nat
  maxPerHost : Nat

/-- `NewConnectionPool`: empty pool with `MaxConnectionsPerHost = 6`. -/
def NewConnectionPool : ConnectionPool :=
  { connections := fun _ => [], closed := [], maxPerHost := 6 }

/-- `ConnectionPool.Get`: pop the most recently stored connection for the
address (LIFO), or report not-found. -/
def ConnectionPool.Get (pool : ConnectionPool) (address : List Char) :
    ConnectionPool × Option Nat :=
  let conns := pool.connections address
  if conns = [] then (pool, none)
  else
    ({ pool with
        connections := fun a => if a = address then conns.dropLast else pool.connections a },
      conns.getLast?)

/-- `ConnectionPool.Put`: store the connection if fewer than `maxPerHost`
are idle for the address, otherwise close it immediately. -/
def ConnectionPool.Put (pool : ConnectionPool) (address : List Char) (conn : Nat) :
    ConnectionPool :=
  let conns := pool.connections address
  if conns.length < pool.maxPerHost then
    { pool with
        connections := fun a => if a = address then conns ++ [conn] else pool.connections a }
  else { pool with closed := pool.closed ++ [conn] }

/-- `ConnectionPool.Close`: close every idle connection for the address and
remove them from the pool. -/
def ConnectionPool.Close (pool : ConnectionPool) (address : List Char) :
    ConnectionPool :=
  { pool with
      connections := fun a => if a = address then [] else pool.connections a,
      closed := pool.closed ++ pool.connections address }

/-- Checking in the connections `0, ..., n-1` for one address, in order. -/
def checkinRange (address : List Char) (n : Nat) : ConnectionPool :=
  (List.range n).foldl (fun p c => ConnectionPool.Put p address c) NewConnectionPool

/-- Repeated checkout: perform `n` Get operations for the address and
collect the connections handed out, stopping at the first not-found. -/
def drainPool : Nat → ConnectionPool → List Char → ConnectionPool × List Nat
  | 0, p, _ => (p, [])
  | n + 1, p, address =>
    match ConnectionPool.Get p address with
    | (p', none) => (p', [])
    | (p', some c) =>
      let r := drainPool n p' address
      (r.1, c :: r.2)

/-- Claim C6: with the fixed capacity 6, every checkout/checkin/evict
operation preserves the at-most-6-idle-connections-per-address bound;
checkin appends exactly when fewer than 6 are idle and otherwise closes the
connection; and checking in connections 0..9 for one address from an empty
pool leaves idle list [0,1,2,3,4,5], closes 6,7,8,9, and repeated checkout
then yields exactly 5,4,3,2,1,0 (LIFO) before reporting not-found. -/
theorem connectionPool_spec (p : ConnectionPool) (address : List Char) (conn : Nat) :
    (p.maxPerHost = 6 → (∀ a, (p.connections a).length ≤ 6) →
      (∀ a, ((ConnectionPool.Put p address conn).connections a).length ≤ 6) ∧
      (∀ a, (((ConnectionPool.Get p address).1).connections a).length ≤ 6) ∧
      (∀ a, ((ConnectionPool.Close p address).connections a).length ≤ 6)) ∧
    ((p.connections address).length < p.maxPerHost →
      (ConnectionPool.Put p address conn).connections address =
        p.connections address ++ [conn] ∧
      (ConnectionPool.Put p address conn).closed = p.closed) ∧
    (¬ (p.connections address).length < p.maxPerHost →
      (ConnectionPool.Put p address conn).connections = p.connections ∧
      (ConnectionPool.Put p address conn).closed = p.closed ++ [conn]) ∧
    ((checkinRange (("a").toList) 10).connections (("a").toList) =
        [0, 1, 2, 3, 4, 5] ∧
      (checkinRange (("a").toList) 10).closed = [6, 7, 8, 9] ∧
      (drainPool 7 (checkinRange (("a").toList) 10) (("a").toList)).2 =
        [5, 4, 3, 2, 1, 0]) := by
  refine ⟨fun hmax hb => ⟨fun a => ?_, fun a => ?_, fun a => ?_⟩,
    fun hlt => ?_, fun hge => ?_, by decide, by decide, by decide⟩
  · by_cases hfull : (p.connections address).length < p.maxPerHost
    · simp only [ConnectionPool.Put, if_pos hfull]
      by_cases ha : a = address
      · subst ha
        have hlen : (if a = a then p.connections a ++ [conn] else p.connections a) =
            p.connections a ++ [conn] := if_pos rfl
        rw [hlen, List.length_append, List.length_cons, List.length_nil]
        omega
      · simpa [ha] using hb a
    · simp only [ConnectionPool.Put, if_neg hfull]
      exact hb a
  · by_cases hemp : p.connections address = []
    · simpa [ConnectionPool.Get, hemp] using hb a
    · simp only [ConnectionPool.Get, if_neg hemp]
      by_cases ha : a = address
      · subst ha
        simp only [if_pos rfl]
        calc (p.connections a).dropLast.length ≤ (p.connections a).length :=
              (p.connections a).length_dropLast ▸ Nat.sub_le _ _
          _ ≤ 6 := hb a
      · simpa [ha] using hb a
  · simp only [ConnectionPool.Close]
    by_cases ha : a = address
    · subst ha; simp
    · simpa [ha] using hb a
  · simp [ConnectionPool.Put, if_pos hlt]
  · simp [ConnectionPool.Put, if_neg hge]

/-- Witness for claim C6 at the empty pool. -/
theorem connectionPool_spec_witness :
    (∀ a, ((ConnectionPool.Put NewConnectionPool (("a").toList) 0).connections a).length ≤ 6) ∧
    (ConnectionPool.Put NewConnectionPool (("a").toList) 0).connections (("a").toList) = [0] :=
  ⟨((connectionPool_spec NewConnectionPool (("a").toList) 0).1 rfl
      (fun _ => Nat.zero_le 6)).1,
    by
      have h := ((connectionPool_spec NewConnectionPool (("a").toList) 0).2.1
        (by decide)).1
      simpa using h⟩

/-! ## Protocol codec: bufio primitives -/

/-- Go `bufio.Reader.ReadString` with a newline delimiter: the line up to
and including the first newline, plus the remaining stream; `none` when the
stream ends first (the callers here treat that error as fatal, except where
noted). -/
def readLine : List Char → Option (List Char × List Char)
  | [] => none
  | c :: cs =>
    if c = '\n' then some ([c], cs)
    else
      match readLine cs with
      | some (l, r) => some (c :: l, r)
      | none => none

/-- The trailing-line read after a final chunk, whose result and error Go
discards: consume up to and including the next newline, or everything. -/
def skipLine (s : List Char) : List Char :=
  match readLine s with
  | some (_, r) => r
  | none => []

/-- Go `io.ReadFull` into a buffer of `n` bytes: errors when the stream is
shorter. -/
def readFull (n : Nat) (s : List Char) : Option (List Char × List Char) :=
  if n ≤ s.length then some (s.take n, s.drop n) else none

theorem readLine_length {s l r : List Char} (h : readLine s = some (l, r)) :
    r.length < s.length := by
  induction s generalizing l r with
  | nil => simp [readLine] at h
  | cons c cs ih =>
    by_cases hc : c = '\n'
    · rw [readLine, if_pos hc] at h
      cases h
      simp
    · rw [readLine, if_neg hc] at h
      cases hrec : readLine cs with
      | none => rw [hrec] at h; cases h
      | some p =>
        rw [hrec] at h
        cases h
        have := ih (l := p.1) (r := p.2) (by rw [hrec])
        simp only [List.length_cons]
        omega

theorem readFull_length {n : Nat} {s d r : List Char}
    (h : readFull n s = some (d, r)) : r.length ≤ s.length := by
  unfold readFull at h
  split at h
  · cases h; simp
  · cases h

/-! ## Chunked transfer decoding (readChunkedBody) -/

/-- Result of one body read: the body and the unconsumed stream, an error,
or a Go runtime panic. -/
inductive BodyOut where
  | ok (body rest : List Char)
  | err
  | panicked
deriving DecidableEq

/-- `readChunkedBody`: repeatedly read a hex size line, that many bytes and
a trailing line break, until a 0 size; a negative parsed size reaches
`make([]byte, chunkSize)`, which panics at runtime. -/
def readChunkedBody (s acc : List Char) : BodyOut :=
  match _h1 : readLine s with
  | none => .err
  | some (sizeLine, rest) =>
    match parseHexInt64 (trimSpace sizeLine) with
    | none => .err
    | some chunkSize =>
      if chunkSize = 0 then .ok acc (skipLine rest)
      else if chunkSize < 0 then .panicked
      else
        match _h2 : readFull chunkSize.toNat rest with
        | none => .err
        | some (chunkData, rest2) =>
          match _h3 : readLine rest2 with
          | none => .err
          | some (_, rest3) => readChunkedBody rest3 (acc ++ chunkData)
termination_by s.length
decreasing_by
  have a1 := readLine_length _h1
  have a2 := readFull_length _h2
  have a3 := readLine_length _h3
  omega

/-! ## Header parsing (readHeaders) -/

/-- The lower-cased header keys the body reader and orchestrator consult. -/
def transferEncodingKey : List Char := ("transfer-encoding").toList

/-- The chunked transfer coding token. -/
def chunkedValue : List Char := ("chunked").toList

/-- The `content-length` key. -/
def contentLengthKey : List Char := ("content-length").toList

/-- The `location` key. -/
def locationKey : List Char := ("location").toList

/-- `readHeaders`: read lines until an empty line or end of stream; each
line with a colon at a positive index becomes a lower-cased-key entry. -/
def readHeaders (s : List Char) (headers : Headers) : Headers × List Char :=
  match _h1 : readLine s with
  | none => (headers, [])
  | some (line, rest) =>
    if line = ['\r', '\n'] ∨ line = ['\n'] then (headers, rest)
    else
      let trimmed := trimSpace line
      match splitN2 [':'] trimmed with
      | some (key, value) =>
        if key ≠ [] then
          readHeaders rest (hset headers (toLowerStr (trimSpace key)) (trimSpace value))
        else readHeaders rest headers
      | none => readHeaders rest headers
termination_by s.length
decreasing_by
  all_goals
    have a1 := readLine_length _h1
    omega

/-! ## Body framing (readBody) and response parsing (ParseResponse) -/

/-- `readBody`: chunked transfer decoding when `Transfer-Encoding: chunked`
is present, else an exact `Content-Length` read, else read to end of
stream. -/
def readBody (headers : Headers) (s : List Char) : BodyOut :=
  if hfind headers transferEncodingKey = some chunkedValue then
    readChunkedBody s []
  else
    match hfind headers contentLengthKey with
    | some clStr =>
      match goAtoi clStr with
      | none => .err
      | some contentLength =>
        if contentLength < 0 then .err
        else
          match readFull contentLength.toNat s with
          | none => .err
          | some (b, r) => .ok b r
    | none => .ok s []

/-- The status-line step of `ParseResponse`: trim, split into at most three
space-separated tokens, and run `Atoi` on the second. -/
def parseStatusLine (statusLine : List Char) : Option Int :=
  match splitNChar ' ' 3 (trimSpace statusLine) with
  | _ :: p1 :: _ => goAtoi p1
  | _ => none

/-- Result of one full response parse. -/
inductive ExchOut where
  | ok (statusCode : Int) (body : List Char) (headers : Headers)
  | err
  | panicked
deriving DecidableEq

/-- `ParseResponse`: status line, then headers, then body. -/
def ParseResponse (s : List Char) : ExchOut :=
  match readLine s with
  | none => .err
  | some (statusLine, rest) =>
    match parseStatusLine statusLine with
    | none => .err
    | some statusCode =>
      let hr := readHeaders rest []
      match readBody hr.1 hr.2 with
      | .ok body _ => .ok statusCode body hr.1
      | .err => .err
      | .panicked => .panicked

/-! ## Claims C2, C9 (chunked decoding) and C8 (status line) -/

/-- Claim C2: with `Transfer-Encoding: chunked` present the body is decoded
by the chunk loop (hex size line, that many bytes, trailing line break,
appended in order, 0 ends it), and the example chunk stream reassembles to
the body `Hello World`. -/
theorem readBody_chunked_spec (headers : Headers) (s : List Char)
    (h : hfind headers transferEncodingKey = some chunkedValue) :
    readBody headers s = readChunkedBody s [] ∧
    readChunkedBody (("5\r\nHello\r\n6\r\n World\r\n0\r\n\r\n").toList) [] =
      BodyOut.ok (("Hello World").toList) [] := by
  constructor
  · simp [readBody, h]
  · simp [readChunkedBody, readLine, readFull, skipLine, trimSpace, parseHexInt64,
      goParseInt, parseUnsigned, puStep, digitVal16, maxI64, isSpaceGo]

/-- Witness for claim C2: the example stream decoded through `readBody`
with a concrete chunked header map. -/
theorem readBody_chunked_spec_witness :
    readBody [(transferEncodingKey, chunkedValue)]
        (("5\r\nHello\r\n6\r\n World\r\n0\r\n\r\n").toList) =
      BodyOut.ok (("Hello World").toList) [] := by
  have h := readBody_chunked_spec [(transferEncodingKey, chunkedValue)]
    (("5\r\nHello\r\n6\r\n World\r\n0\r\n\r\n").toList) (by decide)
  rw [h.1, h.2]

/-- Claim C9 fails on one point: a chunk-size line that parses to a negative
number (ParseInt accepts a sign) reaches `make([]byte, chunkSize)` and
panics instead of returning an error; non-numeric size lines and truncated
chunks do return errors as claimed. -/
theorem readChunkedBody_negative_size_panics :
    readChunkedBody (("-5\r\nHello\r\n0\r\n\r\n").toList) [] = BodyOut.panicked ∧
    readBody [(transferEncodingKey, chunkedValue)] (("-5\r\nHello\r\n0\r\n\r\n").toList) =
      BodyOut.panicked ∧
    readChunkedBody (("zz\r\nHello\r\n").toList) [] = BodyOut.err ∧
    readChunkedBody (("5\r\nHe").toList) [] = BodyOut.err := by
  refine ⟨?_, ?_, ?_, ?_⟩ <;>
    simp [readBody, readChunkedBody, readLine, readFull, skipLine, trimSpace,
      parseHexInt64, goParseInt, parseUnsigned, puStep, digitVal16, maxI64, isSpaceGo, hfind,
      transferEncodingKey, chunkedValue]

/-- Modelled from the spec (claim C8's wording): the second token must parse
as a non-negative integer. -/
def claimC8NonNegStatus (s : List Char) : Option Int :=
  match goAtoi s with
  | some code => if 0 ≤ code then some code else none
  | none => none

/-- Claim C8 as stated is false on the code: in `HTTP/1.1 -5 OK` the second
token does not parse as a non-negative integer (so the claim requires a
parse error), yet `ParseResponse` accepts it and returns status -5. -/
theorem parseResponse_claimC8_counterexample :
    claimC8NonNegStatus (("-5").toList) = none ∧
    parseStatusLine (("HTTP/1.1 -5 OK\r\n").toList) = some (-5) ∧
    ParseResponse (("HTTP/1.1 -5 OK\r\n\r\n").toList) = ExchOut.ok (-5) [] [] := by
  refine ⟨by decide, by decide, ?_⟩
  simp [ParseResponse, readLine, readHeaders, readBody, parseStatusLine, splitNChar,
    splitN2, trimSpace, goAtoi, goParseInt, parseUnsigned, puStep, digitVal10, maxI64, isSpaceGo,
    hfind, transferEncodingKey, contentLengthKey, chunkedValue]

/-- Claim C8 amended: status-line parsing fails iff the trimmed first line
splits (on single spaces, into at most 3 parts) into fewer than 2 tokens or
the second token does not parse as a signed base-10 integer in Go Atoi
semantics; otherwise the Atoi value of the second token — negative values
included — is returned as the status code. -/
theorem parseStatusLine_spec (line : List Char) :
    (parseStatusLine line = none ↔
      ((splitNChar ' ' 3 (trimSpace line)).length < 2 ∨
        ∃ p0 p1 rest, splitNChar ' ' 3 (trimSpace line) = p0 :: p1 :: rest ∧
          goAtoi p1 = none)) ∧
    (∀ code, parseStatusLine line = some code →
      ∃ p0 p1 rest, splitNChar ' ' 3 (trimSpace line) = p0 :: p1 :: rest ∧
        goAtoi p1 = some code) ∧
    (∀ s rest, readLine s = some (line, rest) → parseStatusLine line = none →
      ParseResponse s = ExchOut.err) := by
  refine ⟨?_, ?_, fun s rest hrl hps => ?_⟩
  · cases hsp : splitNChar ' ' 3 (trimSpace line) with
    | nil => simp [parseStatusLine, hsp]
    | cons p0 tl =>
      cases tl with
      | nil => simp [parseStatusLine, hsp]
      | cons p1 rest =>
        simp only [parseStatusLine, hsp]
        constructor
        · intro hg
          exact Or.inr ⟨p0, p1, rest, rfl, hg⟩
        · rintro (hlen | ⟨q0, q1, qrest, heq, hg⟩)
          · simp at hlen; omega
          · obtain ⟨rfl, rfl, rfl⟩ : q0 = p0 ∧ q1 = p1 ∧ qrest = rest := by
              have h0 := heq
              injection h0 with h0a h0b
              injection h0b with h0c h0d
              exact ⟨h0a.symm, h0c.symm, h0d.symm⟩
            exact hg
  · intro code hcode
    cases hsp : splitNChar ' ' 3 (trimSpace line) with
    | nil => rw [parseStatusLine, hsp] at hcode; cases hcode
    | cons p0 tl =>
      cases tl with
      | nil => rw [parseStatusLine, hsp] at hcode; cases hcode
      | cons p1 rest =>
        rw [parseStatusLine, hsp] at hcode
        exact ⟨p0, p1, rest, rfl, hcode⟩
  · simp [ParseResponse, hrl, hps]

/-- Witness for the amended claim C8: a line with a single token is a parse
error. -/
theorem parseStatusLine_spec_witness :
    parseStatusLine (("HTTP/1.1").toList) = none :=
  ((parseStatusLine_spec (("HTTP/1.1").toList)).1).2 (Or.inl (by decide))

/-! ## Claim C10 (end-of-stream framing still pools the connection) -/

/-- The tail of `HTTPFetcher.doRequest` once the response bytes are read:
a parse error closes the connection; otherwise the connection is returned
to the pool and the parsed triple handed back. -/
def doRequestFinish (pool : ConnectionPool) (address : List Char) (conn : Nat)
    (r : ExchOut) : ConnectionPool × Option (Int × List Char × Headers) :=
  match r with
  | .ok statusCode body headers =>
    (ConnectionPool.Put pool address conn, some (statusCode, body, headers))
  | _ => ({ pool with closed := pool.closed ++ [conn] }, none)

/-- Claim C10: when neither chunked transfer coding nor Content-Length is
present, the body is the whole remaining stream and the exchange still
succeeds, so `doRequest` checks the connection back into the pool exactly
as on the length-framed path. -/
theorem eofFraming_reusesConnection (headers : Headers) (s : List Char)
    (hte : hfind headers transferEncodingKey ≠ some chunkedValue)
    (hcl : hfind headers contentLengthKey = none) :
    readBody headers s = BodyOut.ok s [] ∧
    (∀ (pool : ConnectionPool) (address : List Char) (conn : Nat) (st : Int)
        (b : List Char),
      doRequestFinish pool address conn (ExchOut.ok st b headers) =
        (ConnectionPool.Put pool address conn, some (st, b, headers))) := by
  refine ⟨?_, fun pool address conn st b => rfl⟩
  simp [readBody, hte, hcl]

/-- Witness for claim C10 with an empty header map. -/
theorem eofFraming_reusesConnection_witness :
    readBody [] (("abc").toList) = BodyOut.ok (("abc").toList) [] ∧
    doRequestFinish NewConnectionPool (("a").toList) 0 (ExchOut.ok 200 [] []) =
      (ConnectionPool.Put NewConnectionPool (("a").toList) 0, some (200, [], [])) := by
  have h := eofFraming_reusesConnection [] (("abc").toList) (by decide) (by decide)
  exact ⟨h.1, h.2 NewConnectionPool (("a").toList) 0 200 []⟩

/-! ## URL parsing (NewURL, parseHostPath, parsePort, URL.String) -/

/-- The `http` scheme constant. -/
def schemeHTTP : List Char := ("http").toList

/-- The `https` scheme constant. -/
def schemeHTTPS : List Char := ("https").toList

/-- The `file` scheme constant. -/
def schemeFile : List Char := ("file").toList

/-- The `data` scheme constant. -/
def schemeData : List Char := ("data").toList

/-- The `view-source` scheme constant. -/
def schemeViewSource : List Char := ("view-source").toList

/-- The `://` scheme delimiter. -/
def schemeDelim : List Char := ("://").toList

/-- A parsed URL: scheme, host, numeric port and path. -/
structure URL where
  Scheme : List Char
  Host : List Char
  Port : Int
  Path : List Char
deriving DecidableEq

/-- `parseHostPath`: for `file` the whole rest is the path; otherwise split
at the first slash (path defaults to `/`). -/
def parseHostPath (scheme rest : List Char) : List Char × List Char :=
  if scheme = schemeFile then ([], rest)
  else
    match splitN2 ['/'] rest with
    | some (host, p) => (host, '/' :: p)
    | none => (rest, ['/'])

/-- `parsePort`: `file` has port 0; an explicit `host:port` is split at the
first colon and the port run through Atoi; otherwise the scheme default. -/
def parsePort (scheme host : List Char) : Option (List Char × Int) :=
  if scheme = schemeFile then some (host, 0)
  else
    match splitN2 [':'] host with
    | some (cleanHost, portStr) =>
      match goAtoi portStr with
      | none => none
      | some port => some (cleanHost, port)
    | none =>
      if scheme = schemeHTTPS then some (host, 443) else some (host, 80)

/-- `NewURL`: parse a URL string (special-casing `view-source:` and
`data:`), returning `none` on a malformed or unsupported input. -/
def NewURL (urlStr : List Char) : Option URL :=
  if (schemeViewSource ++ [':']).isPrefixOf urlStr then
    some ⟨schemeViewSource, [], 0, urlStr.drop 12⟩
  else if (schemeData ++ [':']).isPrefixOf urlStr then
    some ⟨schemeData, [], 0, urlStr.drop 5⟩
  else
    match splitN2 schemeDelim urlStr with
    | none => none
    | some (scheme, rest) =>
      if scheme ≠ schemeHTTP ∧ scheme ≠ schemeHTTPS ∧ scheme ≠ schemeFile then none
      else
        match parsePort scheme (parseHostPath scheme rest).1 with
        | none => none
        | some (host, port) =>
          some ⟨scheme, host, port, (parseHostPath scheme rest).2⟩

/-- `URL.String`: canonical string form, omitting a default port. -/
def urlString (u : URL) : List Char :=
  if u.Scheme = schemeData then schemeData ++ ':' :: u.Path
  else if u.Scheme = schemeViewSource then schemeViewSource ++ ':' :: u.Path
  else if u.Scheme = schemeFile then schemeFile ++ schemeDelim ++ u.Path
  else if (u.Scheme = schemeHTTP ∧ u.Port = 80) ∨ (u.Scheme = schemeHTTPS ∧ u.Port = 443) then
    u.Scheme ++ schemeDelim ++ u.Host ++ u.Path
  else u.Scheme ++ schemeDelim ++ u.Host ++ ':' :: intToChars u.Port ++ u.Path

/-! ## Redirect target resolution (resolveURL) -/

/-- The absolute URL string built by `resolveURL` for a root-relative
Location: scheme, host, the port unless it is the scheme's default, and
the Location as path. -/
def resolveConstruct (base : URL) (location : List Char) : List Char :=
  if base.Scheme = schemeHTTPS ∧ base.Port = 443 then
    schemeHTTPS ++ (schemeDelim ++ (base.Host ++ location))
  else if base.Scheme = schemeHTTP ∧ base.Port = 80 then
    schemeHTTP ++ (schemeDelim ++ (base.Host ++ location))
  else
    base.Scheme ++ (schemeDelim ++ (base.Host ++ ':' :: (intToChars base.Port ++ location)))

/-- `resolveURL`: an absolute `http(s)` Location is parsed directly; a
root-relative one is joined with the base; anything else is an
unsupported-format error. -/
def resolveURL (base : URL) (location : List Char) : Option URL :=
  if (schemeHTTP ++ schemeDelim).isPrefixOf location ∨
      (schemeHTTPS ++ schemeDelim).isPrefixOf location then
    NewURL location
  else if location.head? = some '/' then NewURL (resolveConstruct base location)
  else none

/-! ## Decimal round-trip and split lemmas for URL reconstruction -/

theorem digitToChar_props (d : Nat) (h : d < 10) :
    digitVal10 (digitToChar d) = some d ∧ digitToChar d ≠ '+' ∧ digitToChar d ≠ '-' ∧
    digitToChar d ≠ '/' ∧ digitToChar d ≠ ':' := by
  interval_cases d <;> exact ⟨by decide, by decide, by decide, by decide, by decide⟩

theorem natToChars_ne_nil (n : Nat) : natToChars n ≠ [] := by
  rw [natToChars]
  split
  · simp
  · simp

theorem natToChars_digits (n : Nat) :
    ∀ c ∈ natToChars n, ∃ d, d < 10 ∧ c = digitToChar d := by
  induction n using Nat.strong_induction_on with
  | _ n ih =>
    rw [natToChars]
    split
    · intro c hc
      simp only [List.mem_singleton] at hc
      exact ⟨n, by omega, hc⟩
    · intro c hc
      rw [List.mem_append] at hc
      rcases hc with hc | hc
      · exact ih (n / 10) (Nat.div_lt_self (by omega) (by omega)) c hc
      · simp only [List.mem_singleton] at hc
        exact ⟨n % 10, Nat.mod_lt _ (by omega), hc⟩

theorem foldl_puStep_natToChars (n : Nat) :
    ∀ a : Nat, (natToChars n).foldl (puStep digitVal10 10) (some a) =
      some (a * 10 ^ (natToChars n).length + n) := by
  induction n using Nat.strong_induction_on with
  | _ n ih =>
    intro a
    rw [natToChars]
    split
    · rename_i h
      simp [List.foldl_cons, puStep, (digitToChar_props n h).1]
    · rename_i h
      rw [List.foldl_append]
      rw [ih (n / 10) (Nat.div_lt_self (by omega) (by omega)) a]
      simp only [List.foldl_cons, List.foldl_nil, puStep,
        (digitToChar_props (n % 10) (Nat.mod_lt _ (by omega))).1]
      have hdm : n / 10 * 10 + n % 10 = n := Nat.div_add_mod' n 10
      have hlen : (natToChars (n / 10) ++ [digitToChar (n % 10)]).length =
          (natToChars (n / 10)).length + 1 := by simp
      rw [hlen]
      congr 1
      calc (a * 10 ^ (natToChars (n / 10)).length + n / 10) * 10 + n % 10
          = a * (10 ^ (natToChars (n / 10)).length * 10) + (n / 10 * 10 + n % 10) := by
            ring
        _ = a * 10 ^ ((natToChars (n / 10)).length + 1) + n := by rw [hdm, pow_succ]

theorem parseUnsigned_natToChars (n : Nat) :
    parseUnsigned digitVal10 10 (natToChars n) = some n := by
  rw [parseUnsigned, if_neg (by simpa using natToChars_ne_nil n),
    foldl_puStep_natToChars n 0]
  simp

theorem natToChars_head_not_sign (n : Nat) :
    (natToChars n).head? ≠ some '+' ∧ (natToChars n).head? ≠ some '-' := by
  cases h : natToChars n with
  | nil => exact absurd h (natToChars_ne_nil n)
  | cons c cs =>
    have hc : c ∈ natToChars n := h ▸ List.mem_cons_self c cs
    obtain ⟨d, hd, rfl⟩ := natToChars_digits n c hc
    have hp := digitToChar_props d hd
    exact ⟨by simp [hp.2.1], by simp [hp.2.2.1]⟩

theorem goAtoi_natToChars {n : Nat} (h : n ≤ maxI64) :
    goAtoi (natToChars n) = some (Int.ofNat n) := by
  have hs := natToChars_head_not_sign n
  rw [goAtoi, goParseInt, if_neg hs.1, if_neg hs.2, parseUnsigned_natToChars]
  simp [h]

theorem natToChars_no_sep (n : Nat) :
    ¬ '/' ∈ natToChars n ∧ ¬ ':' ∈ natToChars n := by
  constructor <;> intro hmem
  · obtain ⟨d, hd, hc⟩ := natToChars_digits n _ hmem
    exact (digitToChar_props d hd).2.2.2.1 hc.symm
  · obtain ⟨d, hd, hc⟩ := natToChars_digits n _ hmem
    exact (digitToChar_props d hd).2.2.2.2 hc.symm

theorem splitN2_not_found {c : Char} {s : List Char} (h : ¬ c ∈ s) :
    splitN2 [c] s = none := by
  induction s with
  | nil => simp [splitN2, List.isPrefixOf]
  | cons a as ih =>
    have hca : ¬ (c = a) := fun hcon => h (hcon ▸ List.mem_cons_self a as)
    have has : ¬ c ∈ as := fun hcon => h (List.mem_cons_of_mem a hcon)
    simp [splitN2, List.isPrefixOf, ih has, hca]

theorem splitN2_found {c : Char} {pre post : List Char} (h : ¬ c ∈ pre) :
    splitN2 [c] (pre ++ c :: post) = some (pre, post) := by
  induction pre with
  | nil => simp [splitN2, List.isPrefixOf]
  | cons a pres ih =>
    have hca : ¬ (c = a) := fun hcon => h (hcon ▸ List.mem_cons_self a pres)
    have hpres : ¬ c ∈ pres := fun hcon => h (List.mem_cons_of_mem a hcon)
    simp [splitN2, List.isPrefixOf, ih hpres, hca]

theorem NewURL_noPort (sch host tail : List Char)
    (hsch : sch = schemeHTTP ∨ sch = schemeHTTPS)
    (hhs : ¬ '/' ∈ host) (hhc : ¬ ':' ∈ host) :
    NewURL (sch ++ (schemeDelim ++ (host ++ '/' :: tail))) =
      some ⟨sch, host, if sch = schemeHTTPS then 443 else 80, '/' :: tail⟩ := by
  have hhp : ∀ s, s = schemeHTTP ∨ s = schemeHTTPS →
      parseHostPath s (host ++ '/' :: tail) = (host, '/' :: tail) := by
    rintro s (rfl | rfl) <;>
      rw [parseHostPath, if_neg (by decide), splitN2_found hhs]
  rcases hsch with rfl | rfl
  · have hpre1 : ((schemeViewSource ++ [':']).isPrefixOf
        (schemeHTTP ++ (schemeDelim ++ (host ++ '/' :: tail)))) = false := by
      simp [schemeViewSource, schemeHTTP, schemeDelim, List.isPrefixOf]
    have hpre2 : ((schemeData ++ [':']).isPrefixOf
        (schemeHTTP ++ (schemeDelim ++ (host ++ '/' :: tail)))) = false := by
      simp [schemeData, schemeHTTP, schemeDelim, List.isPrefixOf]
    have hsp : splitN2 schemeDelim (schemeHTTP ++ (schemeDelim ++ (host ++ '/' :: tail))) =
        some (schemeHTTP, host ++ '/' :: tail) := by
      simp [splitN2, schemeDelim, schemeHTTP, List.isPrefixOf]
    have hpp : parsePort schemeHTTP host = some (host, 80) := by
      rw [parsePort, if_neg (by decide), splitN2_not_found hhc, if_neg (by decide)]
    rw [NewURL]
    simp only [hpre1, hpre2, Bool.false_eq_true, if_false]
    rw [hsp]
    simp only [hhp schemeHTTP (Or.inl rfl), hpp]
    rw [if_neg (by decide), if_neg (by decide)]
  · have hpre1 : ((schemeViewSource ++ [':']).isPrefixOf
        (schemeHTTPS ++ (schemeDelim ++ (host ++ '/' :: tail)))) = false := by
      simp [schemeViewSource, schemeHTTPS, schemeDelim, List.isPrefixOf]
    have hpre2 : ((schemeData ++ [':']).isPrefixOf
        (schemeHTTPS ++ (schemeDelim ++ (host ++ '/' :: tail)))) = false := by
      simp [schemeData, schemeHTTPS, schemeDelim, List.isPrefixOf]
    have hsp : splitN2 schemeDelim (schemeHTTPS ++ (schemeDelim ++ (host ++ '/' :: tail))) =
        some (schemeHTTPS, host ++ '/' :: tail) := by
      simp [splitN2, schemeDelim, schemeHTTPS, List.isPrefixOf]
    have hpp : parsePort schemeHTTPS host = some (host, 443) := by
      rw [parsePort, if_neg (by decide), splitN2_not_found hhc, if_pos (by decide)]
    rw [NewURL]
    simp only [hpre1, hpre2, Bool.false_eq_true, if_false]
    rw [hsp]
    simp only [hhp schemeHTTPS (Or.inr rfl), hpp]
    rw [if_neg (by decide), if_pos (by decide)]

theorem NewURL_withPort (sch host tail : List Char) (m : Nat)
    (hsch : sch = schemeHTTP ∨ sch = schemeHTTPS)
    (hhs : ¬ '/' ∈ host) (hhc : ¬ ':' ∈ host) (hm : m ≤ maxI64) :
    NewURL (sch ++ (schemeDelim ++ (host ++ ':' :: (natToChars m ++ '/' :: tail)))) =
      some ⟨sch, host, Int.ofNat m, '/' :: tail⟩ := by
  have hassoc : host ++ ':' :: (natToChars m ++ '/' :: tail) =
      (host ++ ':' :: natToChars m) ++ '/' :: tail := by
    simp
  have hpresep : ¬ '/' ∈ host ++ ':' :: natToChars m := by
    intro hmem
    rcases List.mem_append.mp hmem with hmem | hmem
    · exact hhs hmem
    · rcases List.mem_cons.mp hmem with hmem | hmem
      · exact absurd hmem (by decide)
      · exact (natToChars_no_sep m).1 hmem
  have hhp : ∀ s, s = schemeHTTP ∨ s = schemeHTTPS →
      parseHostPath s (host ++ ':' :: (natToChars m ++ '/' :: tail)) =
        (host ++ ':' :: natToChars m, '/' :: tail) := by
    rintro s (rfl | rfl) <;>
      rw [parseHostPath, if_neg (by decide), hassoc, splitN2_found hpresep]
  have hpp : ∀ s, s = schemeHTTP ∨ s = schemeHTTPS →
      parsePort s (host ++ ':' :: natToChars m) = some (host, Int.ofNat m) := by
    rintro s (rfl | rfl) <;>
      (rw [parsePort, if_neg (by decide), splitN2_found hhc]
       simp [goAtoi_natToChars hm])
  rcases hsch with rfl | rfl
  · have hpre1 : ((schemeViewSource ++ [':']).isPrefixOf
        (schemeHTTP ++ (schemeDelim ++ (host ++ ':' :: (natToChars m ++ '/' :: tail))))) =
        false := by
      simp [schemeViewSource, schemeHTTP, schemeDelim, List.isPrefixOf]
    have hpre2 : ((schemeData ++ [':']).isPrefixOf
        (schemeHTTP ++ (schemeDelim ++ (host ++ ':' :: (natToChars m ++ '/' :: tail))))) =
        false := by
      simp [schemeData, schemeHTTP, schemeDelim, List.isPrefixOf]
    have hsp : splitN2 schemeDelim
        (schemeHTTP ++ (schemeDelim ++ (host ++ ':' :: (natToChars m ++ '/' :: tail)))) =
        some (schemeHTTP, host ++ ':' :: (natToChars m ++ '/' :: tail)) := by
      simp [splitN2, schemeDelim, schemeHTTP, List.isPrefixOf]
    rw [NewURL]
    simp only [hpre1, hpre2, Bool.false_eq_true, if_false]
    rw [hsp]
    simp only [hhp schemeHTTP (Or.inl rfl), hpp schemeHTTP (Or.inl rfl)]
    rw [if_neg (by decide)]
  · have hpre1 : ((schemeViewSource ++ [':']).isPrefixOf
        (schemeHTTPS ++ (schemeDelim ++ (host ++ ':' :: (natToChars m ++ '/' :: tail))))) =
        false := by
      simp [schemeViewSource, schemeHTTPS, schemeDelim, List.isPrefixOf]
    have hpre2 : ((schemeData ++ [':']).isPrefixOf
        (schemeHTTPS ++ (schemeDelim ++ (host ++ ':' :: (natToChars m ++ '/' :: tail))))) =
        false := by
      simp [schemeData, schemeHTTPS, schemeDelim, List.isPrefixOf]
    have hsp : splitN2 schemeDelim
        (schemeHTTPS ++ (schemeDelim ++ (host ++ ':' :: (natToChars m ++ '/' :: tail)))) =
        some (schemeHTTPS, host ++ ':' :: (natToChars m ++ '/' :: tail)) := by
      simp [splitN2, schemeDelim, schemeHTTPS, List.isPrefixOf]
    rw [NewURL]
    simp only [hpre1, hpre2, Bool.false_eq_true, if_false]
    rw [hsp]
    simp only [hhp schemeHTTPS (Or.inr rfl), hpp schemeHTTPS (Or.inr rfl)]
    rw [if_neg (by decide)]

/-! ## Claim C5 (redirect Location resolution) -/

/-- The scheme's default port: 80 for http and 443 for https. -/
def defaultPort (scheme : List Char) : Int :=
  if scheme = schemeHTTPS then 443 else 80

/-- Claim C5: an absolute http(s) Location is parsed directly; a
root-relative Location yields the base's scheme, host and port with the
Location as path, the port being omitted from the constructed string form
exactly when it equals the scheme's default port; any other Location fails
with an unsupported-format error. -/
theorem resolveURL_spec (base : URL) (location : List Char)
    (hsch : base.Scheme = schemeHTTP ∨ base.Scheme = schemeHTTPS)
    (hhs : ¬ '/' ∈ base.Host) (hhc : ¬ ':' ∈ base.Host)
    (hp0 : 0 ≤ base.Port) (hpb : base.Port ≤ (maxI64 : Int)) :
    ((schemeHTTP ++ schemeDelim).isPrefixOf location = true ∨
        (schemeHTTPS ++ schemeDelim).isPrefixOf location = true →
      resolveURL base location = NewURL location) ∧
    (location.head? = some '/' →
      resolveURL base location = some ⟨base.Scheme, base.Host, base.Port, location⟩ ∧
      (base.Port = defaultPort base.Scheme →
        resolveConstruct base location =
          base.Scheme ++ (schemeDelim ++ (base.Host ++ location))) ∧
      (base.Port ≠ defaultPort base.Scheme →
        resolveConstruct base location =
          base.Scheme ++ (schemeDelim ++ (base.Host ++ ':' ::
            (intToChars base.Port ++ location))))) ∧
    (¬ ((schemeHTTP ++ schemeDelim).isPrefixOf location = true ∨
        (schemeHTTPS ++ schemeDelim).isPrefixOf location = true) →
      location.head? ≠ some '/' → resolveURL base location = none) := by
  refine ⟨fun habs => by rw [resolveURL, if_pos habs],
    fun hloc => ?_,
    fun h1 h2 => by rw [resolveURL, if_neg h1, if_neg h2]⟩
  obtain ⟨tail, rfl⟩ : ∃ t, location = '/' :: t := by
    cases location with
    | nil => simp at hloc
    | cons c cs =>
      simp only [List.head?_cons, Option.some.injEq] at hloc
      exact ⟨cs, by rw [hloc]⟩
  have habs : ¬ ((schemeHTTP ++ schemeDelim).isPrefixOf ('/' :: tail) = true ∨
      (schemeHTTPS ++ schemeDelim).isPrefixOf ('/' :: tail) = true) := by
    simp [schemeHTTP, schemeHTTPS, schemeDelim, List.isPrefixOf]
  rcases hsch with hH | hS
  · have hdp : defaultPort schemeHTTP = 80 := by
      rw [defaultPort, if_neg (by decide)]
    rw [hH, hdp]
    by_cases hp : base.Port = 80
    · have hcon : resolveConstruct base ('/' :: tail) =
          schemeHTTP ++ (schemeDelim ++ (base.Host ++ '/' :: tail)) := by
        rw [resolveConstruct,
          if_neg (by rintro ⟨h, _⟩; rw [hH] at h; exact absurd h (by decide)),
          if_pos ⟨hH, hp⟩]
      refine ⟨?_, fun _ => hcon, fun hne => absurd hp hne⟩
      rw [resolveURL, if_neg habs, if_pos hloc, hcon,
        NewURL_noPort schemeHTTP base.Host tail (Or.inl rfl) hhs hhc,
        if_neg (by decide), hp]
    · have hcon : resolveConstruct base ('/' :: tail) =
          schemeHTTP ++ (schemeDelim ++ (base.Host ++ ':' ::
            (natToChars base.Port.toNat ++ '/' :: tail))) := by
        rw [resolveConstruct,
          if_neg (by rintro ⟨h, _⟩; rw [hH] at h; exact absurd h (by decide)),
          if_neg (by rintro ⟨_, h⟩; exact hp h), hH, intToChars,
          if_neg (by omega)]
      have hm : base.Port.toNat ≤ maxI64 := by omega
      refine ⟨?_, fun hdef => absurd hdef hp,
        fun _ => by rw [hcon, intToChars, if_neg (by omega)]⟩
      rw [resolveURL, if_neg habs, if_pos hloc, hcon,
        NewURL_withPort schemeHTTP base.Host tail base.Port.toNat (Or.inl rfl) hhs hhc hm]
      have hback : Int.ofNat base.Port.toNat = base.Port := Int.toNat_of_nonneg hp0
      rw [hback]
  · have hdp : defaultPort schemeHTTPS = 443 := by
      rw [defaultPort, if_pos rfl]
    rw [hS, hdp]
    by_cases hp : base.Port = 443
    · have hcon : resolveConstruct base ('/' :: tail) =
          schemeHTTPS ++ (schemeDelim ++ (base.Host ++ '/' :: tail)) := by
        rw [resolveConstruct, if_pos ⟨hS, hp⟩]
      refine ⟨?_, fun _ => hcon, fun hne => absurd hp hne⟩
      rw [resolveURL, if_neg habs, if_pos hloc, hcon,
        NewURL_noPort schemeHTTPS base.Host tail (Or.inr rfl) hhs hhc,
        if_pos rfl, hp]
    · have hcon : resolveConstruct base ('/' :: tail) =
          schemeHTTPS ++ (schemeDelim ++ (base.Host ++ ':' ::
            (natToChars base.Port.toNat ++ '/' :: tail))) := by
        rw [resolveConstruct,
          if_neg (by rintro ⟨_, h⟩; exact hp h),
          if_neg (by rintro ⟨h, _⟩; rw [hS] at h; exact absurd h (by decide)),
          hS, intToChars, if_neg (by omega)]
      have hm : base.Port.toNat ≤ maxI64 := by omega
      refine ⟨?_, fun hdef => absurd hdef hp,
        fun _ => by rw [hcon, intToChars, if_neg (by omega)]⟩
      rw [resolveURL, if_neg habs, if_pos hloc, hcon,
        NewURL_withPort schemeHTTPS base.Host tail base.Port.toNat (Or.inr rfl) hhs hhc hm]
      have hback : Int.ofNat base.Port.toNat = base.Port := Int.toNat_of_nonneg hp0
      rw [hback]

/-- Witness for claim C5: a root-relative redirect off a default-port http
base keeps scheme, host and port and takes the Location as path. -/
theorem resolveURL_spec_witness :
    resolveURL ⟨schemeHTTP, ("a").toList, 80, ("/").toList⟩ (("/x").toList) =
      some ⟨schemeHTTP, ("a").toList, 80, ("/x").toList⟩ :=
  ((resolveURL_spec ⟨schemeHTTP, ("a").toList, 80, ("/").toList⟩ (("/x").toList)
      (Or.inl rfl) (by decide) (by decide) (by decide) (by decide)).2.1 (by decide)).1

/-! ## Fetch orchestrator (HTTPFetcher.Fetch) -/

/-- Outcome of one `Fetch` call. -/
inductive FetchOut where
  | ok (body : List Char)
  | errRequest
  | errNoLocation (status : Int)
  | errResolve
  | errRedirectLimit (msg : List Char)
deriving DecidableEq

/-- The redirect-limit error message, naming the redirect concept and the
bound 10. -/
def redirectLimitMsg : List Char := ("최대 리다이렉트 횟수 초과 (최대 10회)").toList

/-- The redirect loop of `HTTPFetcher.Fetch`, with the network boundary
`doRequest` abstracted as an exchange oracle `ex`; returns the outcome, the
cache after the loop, and the number of exchanges performed. -/
def fetchLoop (ex : URL → Option (Int × List Char × Headers)) (now : Int)
    (urlStr : List Char) (c : CacheMap) :
    Nat → URL → Nat → FetchOut × CacheMap × Nat
  | 0, _, count => (.errRedirectLimit redirectLimitMsg, c, count)
  | fuel + 1, currentURL, count =>
    match ex currentURL with
    | none => (.errRequest, c, count + 1)
    | some (statusCode, body, headers) =>
      if statusCode < 300 ∨ 400 ≤ statusCode then
        (.ok body, Cache.Put c now urlStr statusCode body headers, count + 1)
      else if hgetD headers locationKey = [] then
        (.errNoLocation statusCode, c, count + 1)
      else
        match resolveURL currentURL (hgetD headers locationKey) with
        | none => (.errResolve, c, count + 1)
        | some nextURL => fetchLoop ex now urlStr c fuel nextURL (count + 1)

/-- `HTTPFetcher.Fetch`: cache lookup keyed by the endpoint's string form,
then at most 10 hops of the redirect loop. -/
def Fetch (ex : URL → Option (Int × List Char × Headers)) (now : Int)
    (c : CacheMap) (u : URL) : FetchOut × CacheMap × Nat :=
  match Cache.Get c now (urlString u) with
  | (c', some entry) => (.ok entry.Body, c', 0)
  | (c', none) => fetchLoop ex now (urlString u) c' 10 u 0

theorem fetchLoop_count_le (ex : URL → Option (Int × List Char × Headers))
    (now : Int) (urlStr : List Char) (c : CacheMap) :
    ∀ (fuel : Nat) (cur : URL) (count : Nat),
      (fetchLoop ex now urlStr c fuel cur count).2.2 ≤ count + fuel := by
  intro fuel
  induction fuel with
  | zero => intro cur count; simp [fetchLoop]
  | succ n ih =>
    intro cur count
    rw [fetchLoop]
    cases hx : ex cur with
    | none => simp
    | some t =>
      obtain ⟨st, b, hs⟩ := t
      simp only
      split
      · simp
      · split
        · simp
        · cases hr : resolveURL cur (hgetD hs locationKey) with
          | none => simp
          | some nx =>
            simp only
            have := ih nx (count + 1)
            omega

theorem fetchLoop_all3xx (ex : URL → Option (Int × List Char × Headers))
    (now : Int) (urlStr : List Char) (c : CacheMap)
    (hall : ∀ v, ∃ st b hs, ex v = some (st, b, hs) ∧ 300 ≤ st ∧ st < 400 ∧
      hgetD hs locationKey ≠ [] ∧
      ∃ nx, resolveURL v (hgetD hs locationKey) = some nx) :
    ∀ (fuel : Nat) (cur : URL) (count : Nat),
      fetchLoop ex now urlStr c fuel cur count =
        (.errRedirectLimit redirectLimitMsg, c, count + fuel) := by
  intro fuel
  induction fuel with
  | zero => intro cur count; simp [fetchLoop]
  | succ n ih =>
    intro cur count
    obtain ⟨st, b, hs, hx, h3a, h3b, hlocne, nx, hres⟩ := hall cur
    rw [fetchLoop, hx]
    simp only
    rw [if_neg (by omega), if_neg hlocne, hres]
    simp only
    rw [ih nx (count + 1)]
    congr 1
    · simp
      omega

theorem fetchLoop_cacheShape (ex : URL → Option (Int × List Char × Headers))
    (now : Int) (urlStr : List Char) (c : CacheMap) :
    ∀ (fuel : Nat) (cur : URL) (count : Nat),
      (fetchLoop ex now urlStr c fuel cur count).2.1 = c ∨
      ∃ st b hs, (st < 300 ∨ 400 ≤ st) ∧
        (fetchLoop ex now urlStr c fuel cur count).1 = FetchOut.ok b ∧
        (fetchLoop ex now urlStr c fuel cur count).2.1 =
          Cache.Put c now urlStr st b hs := by
  intro fuel
  induction fuel with
  | zero => intro cur count; left; simp [fetchLoop]
  | succ n ih =>
    intro cur count
    rw [fetchLoop]
    cases hx : ex cur with
    | none => left; simp
    | some t =>
      obtain ⟨st, b, hs⟩ := t
      simp only
      split
      · rename_i hfin
        right
        exact ⟨st, b, hs, hfin, rfl, rfl⟩
      · split
        · left; simp
        · cases hr : resolveURL cur (hgetD hs locationKey) with
          | none => left; simp
          | some nx => exact ih nx (count + 1)

/-! ## Claims C3 (redirect bound) and C7 (cache keyed by original URL) -/

/-- Claim C3: a fetch performs at most 10 exchanges; when the cache misses
and every exchange yields a 3xx with a resolvable Location, the fetch
returns no body but the distinct redirect-limit error, after exactly 10
exchanges, and the error message names the redirect concept and the
bound 10. -/
theorem fetch_redirectLimit (ex : URL → Option (Int × List Char × Headers))
    (now : Int) (c : CacheMap) (u : URL) :
    (Fetch ex now c u).2.2 ≤ 10 ∧
    ((Cache.Get c now (urlString u)).2 = none →
      (∀ v, ∃ st b hs, ex v = some (st, b, hs) ∧ 300 ≤ st ∧ st < 400 ∧
        hgetD hs locationKey ≠ [] ∧
        ∃ nx, resolveURL v (hgetD hs locationKey) = some nx) →
      (Fetch ex now c u).1 = FetchOut.errRedirectLimit redirectLimitMsg ∧
      (Fetch ex now c u).2.2 = 10 ∧
      ∀ b, FetchOut.errRedirectLimit redirectLimitMsg ≠ FetchOut.ok b) ∧
    containsSeq (("리다이렉트").toList) redirectLimitMsg = true ∧
    containsSeq (("10").toList) redirectLimitMsg = true := by
  refine ⟨?_, fun hmiss hall => ?_, by decide, by decide⟩
  · rcases hget : Cache.Get c now (urlString u) with ⟨c', r⟩
    cases r with
    | none =>
      have h := fetchLoop_count_le ex now (urlString u) c' 10 u 0
      simp only [Fetch, hget]
      omega
    | some entry => simp [Fetch, hget]
  · rcases hget : Cache.Get c now (urlString u) with ⟨c', r⟩
    rw [hget] at hmiss
    cases r with
    | some entry => simp at hmiss
    | none =>
      have h := fetchLoop_all3xx ex now (urlString u) c' hall 10 u 0
      simp only [Fetch, hget, h]
      exact ⟨trivial, trivial, fun b hcon => FetchOut.noConfusion hcon⟩

/-- Witness for claim C3: an oracle that always answers 301 with Location
`http://a/` drives a miss-starting fetch into the redirect-limit error
after exactly 10 exchanges. -/
theorem fetch_redirectLimit_witness :
    (Fetch (fun _ => some (301, [], [(locationKey, ("http://a/").toList)])) 0
        emptyCacheMap ⟨schemeHTTP, ("a").toList, 80, ("/").toList⟩).1 =
      FetchOut.errRedirectLimit redirectLimitMsg ∧
    (Fetch (fun _ => some (301, [], [(locationKey, ("http://a/").toList)])) 0
        emptyCacheMap ⟨schemeHTTP, ("a").toList, 80, ("/").toList⟩).2.2 = 10 := by
  have h := (fetch_redirectLimit
      (fun _ => some (301, [], [(locationKey, ("http://a/").toList)])) 0
      emptyCacheMap ⟨schemeHTTP, ("a").toList, 80, ("/").toList⟩).2.1
    rfl
    (fun v => ⟨301, [], [(locationKey, ("http://a/").toList)], rfl, by decide, by decide,
      by decide, ⟨⟨schemeHTTP, ("a").toList, 80, ("/").toList⟩,
        by rw [resolveURL, if_pos (by decide)]; decide⟩⟩)
  exact ⟨h.1, h.2.1⟩

/-- Claim C7: a fetch either leaves the cache exactly as the initial lookup
left it (every error path, every intermediate 3xx hop, and the cache-hit
path), or it ended on a non-3xx response whose body it returns and which it
handed to the cache store keyed by the originally requested endpoint's
string form — never by the post-redirect endpoint's. -/
theorem fetch_cacheKeyedByOriginal (ex : URL → Option (Int × List Char × Headers))
    (now : Int) (c : CacheMap) (u : URL) :
    (Fetch ex now c u).2.1 = (Cache.Get c now (urlString u)).1 ∨
    ∃ st b hs, (st < 300 ∨ 400 ≤ st) ∧ (Fetch ex now c u).1 = FetchOut.ok b ∧
      (Fetch ex now c u).2.1 =
        Cache.Put (Cache.Get c now (urlString u)).1 now (urlString u) st b hs := by
  rcases hget : Cache.Get c now (urlString u) with ⟨c', r⟩
  cases r with
  | some entry => left; simp [Fetch, hget]
  | none =>
    have h := fetchLoop_cacheShape ex now (urlString u) c' 10 u 0
    rcases h with h | ⟨st, b, hs, hfin, hout, hcache⟩
    · left
      simp only [Fetch, hget]
      rw [h]
    · right
      refine ⟨st, b, hs, hfin, ?_, ?_⟩ <;> simp only [Fetch, hget]
      · rw [hout]
      · rw [hcache]
